import Mathlib

/-!
Verification development for the sample IPP server and its `ipptransform`
tool. The definitions below are shallow embeddings of the C sources
(`server/job.c`, `server/printer.c`, `server/transform.c`,
`tools/ipptransform.c`); theorems settle the specification claims about
those sources.
-/

set_option maxRecDepth 4000

namespace IppServer

/-- IPP job states (`ipp_jstate_t`): the seven states a job can be in. -/
inductive JState where
  | pending
  | held
  | processing
  | stopped
  | canceled
  | aborted
  | completed
deriving DecidableEq, Repr

/-- IPP printer states (`ipp_pstate_t`). -/
inductive PState where
  | idle
  | processing
  | stopped
deriving DecidableEq, Repr

/-- The fields of `server_job_t` that the claims about `job.c` and
`printer.c` depend on. `priority` is the `job-priority` value (an `int` in
C), `completed` the completion `time_t` (0 while the job is not finished),
and `stateReasons` the `server_jreason_t` bitmask. -/
structure Job where
  id : Nat
  priority : Int
  state : JState
  stateReasons : Nat
  completed : Int
deriving DecidableEq, Repr

/-- `compare_active_jobs` from `printer.c`: first compares
`b->priority - a->priority`, and on a tie `b->id - a->id`. A negative
result sorts `a` before `b` in the CUPS array. -/
def compare_active_jobs (a b : Job) : Int :=
  if b.priority - a.priority = 0 then (b.id : Int) - (a.id : Int)
  else b.priority - a.priority

/-- `cupsArrayAdd` on the `active_jobs` array, which is kept sorted by
`compare_active_jobs`: the new element is inserted before the first
existing element it compares below, and after any element it compares
equal to. -/
def insertActive (j : Job) : List Job → List Job
  | [] => [j]
  | x :: xs =>
      if compare_active_jobs j x < 0 then j :: x :: xs
      else x :: insertActive j xs

/-- `cupsArrayRemove` on the `active_jobs` array: removes the first
element that compares equal to the given job. -/
def removeActive (j : Job) (l : List Job) : List Job :=
  l.eraseP (fun x => compare_active_jobs j x = 0)

/-- Contents of a printer's `active_jobs` array reachable through the
array operations the server performs on it (initially empty; jobs are
added by `serverCreateJob` via `cupsArrayAdd` and removed via
`cupsArrayRemove`). -/
inductive ActiveReachable : List Job → Prop where
  | init : ActiveReachable []
  | insert (j : Job) (l : List Job) :
      ActiveReachable l → ActiveReachable (insertActive j l)
  | remove (j : Job) (l : List Job) :
      ActiveReachable l → ActiveReachable (removeActive j l)

/-- The ordering the spec claims for active jobs: priority descending,
and ascending job ids among equal priorities. -/
def claimActiveOrder (a b : Job) : Prop :=
  b.priority < a.priority ∨ (a.priority = b.priority ∧ a.id < b.id)

instance : DecidableRel claimActiveOrder := by
  intro a b
  unfold claimActiveOrder
  infer_instance

/-- `compare_active_jobs` is antisymmetric: swapping the arguments negates
the result. -/
theorem compare_active_jobs_antisymm (a b : Job) :
    compare_active_jobs a b = -compare_active_jobs b a := by
  unfold compare_active_jobs
  split <;> split <;> omega

/-- The non-strict order induced by `compare_active_jobs` is transitive. -/
theorem compare_active_jobs_trans {a b c : Job}
    (h1 : compare_active_jobs a b ≤ 0) (h2 : compare_active_jobs b c ≤ 0) :
    compare_active_jobs a c ≤ 0 := by
  unfold compare_active_jobs at *
  split at h1 <;> split at h2 <;> split <;> omega

/-- Every element of `insertActive j l` is `j` or an element of `l`. -/
theorem mem_insertActive {a j : Job} {l : List Job}
    (h : a ∈ insertActive j l) : a = j ∨ a ∈ l := by
  induction l with
  | nil => simpa [insertActive] using h
  | cons x xs ih =>
      by_cases hc : compare_active_jobs j x < 0
      · rw [insertActive, if_pos hc] at h
        rcases List.mem_cons.mp h with h' | h'
        · exact Or.inl h'
        · exact Or.inr h'
      · rw [insertActive, if_neg hc] at h
        rcases List.mem_cons.mp h with h' | h'
        · exact Or.inr (by simp [h'])
        · rcases ih h' with h'' | h''
          · exact Or.inl h''
          · exact Or.inr (by simp [h''])

/-- Sortedness w.r.t. `compare_active_jobs` is preserved by insertion. -/
theorem pairwise_insertActive {j : Job} {l : List Job}
    (h : l.Pairwise (fun a b => compare_active_jobs a b ≤ 0)) :
    (insertActive j l).Pairwise (fun a b => compare_active_jobs a b ≤ 0) := by
  induction l with
  | nil => simp [insertActive]
  | cons x xs ih =>
      rcases List.pairwise_cons.mp h with ⟨hx, hxs⟩
      by_cases hc : compare_active_jobs j x < 0
      · rw [insertActive, if_pos hc]
        refine List.pairwise_cons.mpr ⟨?_, h⟩
        intro b hb
        rcases List.mem_cons.mp hb with hb' | hb'
        · subst hb'
          exact le_of_lt hc
        · exact compare_active_jobs_trans (le_of_lt hc) (hx b hb')
      · rw [insertActive, if_neg hc]
        refine List.pairwise_cons.mpr ⟨?_, ih hxs⟩
        intro b hb
        rcases mem_insertActive hb with hb' | hb'
        · subst hb'
          have := compare_active_jobs_antisymm x b
          omega
        · exact hx b hb'

/-- Sortedness w.r.t. `compare_active_jobs` is preserved by removal. -/
theorem pairwise_removeActive {j : Job} {l : List Job}
    (h : l.Pairwise (fun a b => compare_active_jobs a b ≤ 0)) :
    (removeActive j l).Pairwise (fun a b => compare_active_jobs a b ≤ 0) :=
  h.sublist (List.eraseP_sublist l)

/-- A job with id 1 and default priority 50, used as a concrete input. -/
def cexJob1 : Job := { id := 1, priority := 50, state := .pending, stateReasons := 0, completed := 0 }

/-- A job with id 2 and default priority 50, used as a concrete input. -/
def cexJob2 : Job := { id := 2, priority := 50, state := .pending, stateReasons := 0, completed := 0 }

/-- Claim C2 counterexample: submitting job 1 and then job 2 at equal
priority yields the active-jobs array `[job 2, job 1]` — a reachable
state in which equal-priority jobs are ordered by id descending, so the
claimed (priority desc, id asc) order does not hold. -/
theorem claim_C2_counterexample :
    ActiveReachable [cexJob2, cexJob1] ∧
      ¬ List.Pairwise claimActiveOrder [cexJob2, cexJob1] := by
  constructor
  · have h : insertActive cexJob2 (insertActive cexJob1 []) = [cexJob2, cexJob1] := by
      decide
    exact h ▸ ActiveReachable.insert cexJob2 _ (ActiveReachable.insert cexJob1 [] ActiveReachable.init)
  · decide

/-- Claim C2 (amended): in every reachable state the active-jobs array is
sorted by `compare_active_jobs`, i.e. by priority descending and, among
jobs of equal priority, by job id DESCENDING (newest first), this order
being re-established by every insertion and removal. -/
theorem claim_C2_amended (l : List Job) (h : ActiveReachable l) :
    l.Pairwise (fun a b => compare_active_jobs a b ≤ 0) := by
  induction h with
  | init => simp
  | insert j l _ ih => exact pairwise_insertActive ih
  | remove j l _ ih => exact pairwise_removeActive ih

/-- Claim C2 witness: the amended sortedness theorem applied to the
concrete reachable state `[job 2, job 1]`. -/
theorem claim_C2_witness :
    List.Pairwise (fun a b => compare_active_jobs a b ≤ 0) [cexJob2, cexJob1] :=
  claim_C2_amended [cexJob2, cexJob1]
    ((by decide : insertActive cexJob2 (insertActive cexJob1 []) = [cexJob2, cexJob1]) ▸
      ActiveReachable.insert cexJob2 _ (ActiveReachable.insert cexJob1 [] ActiveReachable.init))

/-- A completed job is "old" at sweep time `now` when its completion
timestamp is nonzero and more than 60 seconds in the past — the removal
test of `serverCleanJobs`. -/
def isOldJob (now : Int) (j : Job) : Prop :=
  j.completed ≠ 0 ∧ j.completed < now - 60

instance (now : Int) (j : Job) : Decidable (isOldJob now j) := by
  unfold isOldJob
  infer_instance

/-- `serverCleanJobs` from `job.c`: with `cleantime = now - 60`, it walks
the `jobs` array from its first element (the array is ordered by id
descending), removing each job while `job->completed && job->completed <
cleantime`, and stops at the first job failing that test (the `else
break`). The surviving array is therefore the input with its maximal
leading run of old completed jobs removed. -/
def serverCleanJobs (now : Int) (jobs : List Job) : List Job :=
  jobs.dropWhile (fun j => decide (isOldJob now j))

/-- A job completed at time 1, long before the sweep at time 1060. -/
def cexOldJob : Job := { id := 1, priority := 50, state := .completed, stateReasons := 0, completed := 1 }

/-- A job not yet completed, newer than `cexOldJob` (id 2). -/
def cexFreshJob : Job := { id := 2, priority := 50, state := .pending, stateReasons := 0, completed := 0 }

/-- Claim C3 counterexample: with the all-jobs array `[job 2 (active),
job 1 (completed at time 1)]` and a sweep at time 1060, `serverCleanJobs`
stops at the first (non-old) job and the old completed job 1 survives the
sweep, contradicting the claim that no old completed job remains. -/
theorem claim_C3_counterexample :
    cexOldJob ∈ serverCleanJobs 1060 [cexFreshJob, cexOldJob] ∧
      isOldJob 1060 cexOldJob := by
  constructor
  · show cexOldJob ∈ List.dropWhile _ _
    decide
  · decide

/-- If no element of `l` satisfies `p`, `dropWhile p l` is `l` itself. -/
theorem dropWhile_eq_self_of_all_neg {α : Type} (p : α → Bool) (l : List α)
    (h : ∀ a ∈ l, p a = false) : l.dropWhile p = l := by
  cases l with
  | nil => rfl
  | cons x xs => simp [List.dropWhile_cons, h x (by simp)]

/-- Claim C3 (amended): `serverCleanJobs` removes exactly the maximal
leading run of old completed jobs from the all-jobs array; in particular,
whenever every old completed job precedes every job that is not old
completed, no old completed job remains after the sweep. -/
theorem claim_C3_amended (now : Int) (pre suf : List Job)
    (hpre : ∀ j ∈ pre, isOldJob now j) (hsuf : ∀ j ∈ suf, ¬ isOldJob now j) :
    (serverCleanJobs now (pre ++ suf)).all (fun j => !decide (isOldJob now j)) = true := by
  induction pre with
  | nil =>
      simp only [List.nil_append, serverCleanJobs]
      rw [dropWhile_eq_self_of_all_neg _ suf (by intro a ha; simpa using hsuf a ha)]
      simpa using hsuf
  | cons x xs ih =>
      simp only [serverCleanJobs, List.cons_append, List.dropWhile_cons] at *
      rw [if_pos (by simpa using hpre x (by simp))]
      exact ih (fun j hj => hpre j (by simp [hj]))

/-- Claim C3 witness: the amended sweep theorem at the concrete array
`[old job, fresh job]` and sweep time 1060. -/
theorem claim_C3_witness :
    (serverCleanJobs 1060 ([cexOldJob] ++ [cexFreshJob])).all
      (fun j => !decide (isOldJob 1060 j)) = true :=
  claim_C3_amended 1060 [cexOldJob] [cexFreshJob] (by decide) (by decide)

/-- The IPP operations `serverCreateJob` distinguishes
(`ippGetOperation(client->request) != IPP_OP_CREATE_JOB`). -/
inductive IppOp where
  | printJob
  | createJob
  | validateJob
deriving DecidableEq, Repr

/-- The parts of a Print-Job/Create-Job request that determine the fields
of the job object built by `serverCreateJob`: the operation code and the
optional `job-priority` operation attribute. -/
structure CreateJobRequest where
  op : IppOp
  jobPriority : Option Int
deriving DecidableEq, Repr

/-- `compare_jobs` from `printer.c`: `b->id - a->id`, ordering the
all-jobs array by id descending (newest first). -/
def compare_jobs (a b : Job) : Int :=
  (b.id : Int) - (a.id : Int)

/-- `cupsArrayAdd` on the `jobs` array, kept sorted by `compare_jobs`. -/
def insertAllJobs (j : Job) : List Job → List Job
  | [] => [j]
  | x :: xs =>
      if compare_jobs j x < 0 then j :: x :: xs
      else x :: insertAllJobs j xs

/-- The printer fields that `serverCreateJob` reads and writes, protected
by the printer's rwlock: the `next_job_id` counter and the `jobs` /
`active_jobs` arrays. -/
structure PrinterQueue where
  nextJobId : Nat
  jobs : List Job
  activeJobs : List Job
deriving DecidableEq, Repr

/-- `serverCreateJob` from `job.c`: allocates the job with
`state = IPP_JSTATE_HELD` (unconditionally), `priority` from the
`job-priority` attribute or 50, `id = printer->next_job_id++`, and adds
the job to both the `jobs` and `active_jobs` arrays. Returns the job and
the updated printer queue state. -/
def serverCreateJob (p : PrinterQueue) (req : CreateJobRequest) : Job × PrinterQueue :=
  let job : Job :=
    { id := p.nextJobId
      priority := req.jobPriority.getD 50
      state := .held
      stateReasons := 0
      completed := 0 }
  (job,
    { nextJobId := p.nextJobId + 1
      jobs := insertAllJobs job p.jobs
      activeJobs := insertActive job p.activeJobs })

/-- The inserted job is a member of `insertActive j l`. -/
theorem self_mem_insertActive (j : Job) (l : List Job) : j ∈ insertActive j l := by
  induction l with
  | nil => simp [insertActive]
  | cons x xs ih =>
      by_cases hc : compare_active_jobs j x < 0
      · rw [insertActive, if_pos hc]; simp
      · rw [insertActive, if_neg hc]; simp [ih]

/-- The inserted job is a member of `insertAllJobs j l`. -/
theorem self_mem_insertAllJobs (j : Job) (l : List Job) : j ∈ insertAllJobs j l := by
  induction l with
  | nil => simp [insertAllJobs]
  | cons x xs ih =>
      by_cases hc : compare_jobs j x < 0
      · rw [insertAllJobs, if_pos hc]; simp
      · rw [insertAllJobs, if_neg hc]; simp [ih]

/-- An empty printer queue whose next job id is 1, as set by
`serverCreatePrinter`. -/
def cexPrinter0 : PrinterQueue := { nextJobId := 1, jobs := [], activeJobs := [] }

/-- A Print-Job request carrying no `job-priority` attribute. -/
def cexPrintJobReq : CreateJobRequest := { op := .printJob, jobPriority := none }

/-- Claim C4 counterexample: for a Print-Job request, the job returned by
`serverCreateJob` has state `held`, not the claimed `pending` (the code
sets `IPP_JSTATE_HELD` unconditionally; the Print-Job handler only moves
the job to pending later, outside `serverCreateJob`). -/
theorem claim_C4_counterexample :
    cexPrintJobReq.op = IppOp.printJob ∧
      (serverCreateJob cexPrinter0 cexPrintJobReq).1.state = JState.held ∧
      JState.held ≠ JState.pending := by
  refine ⟨rfl, rfl, by decide⟩

/-- Claim C4 (amended): for every job-creating request, `serverCreateJob`
returns a job whose initial state is `held` regardless of whether the
operation is Create-Job or Print-Job, whose id is the printer's
`next_job_id` at the time of the call (the counter being incremented),
and which is inserted into both the all-jobs and active-jobs arrays. -/
theorem claim_C4_amended (p : PrinterQueue) (req : CreateJobRequest) :
    (serverCreateJob p req).1.state = JState.held ∧
      (serverCreateJob p req).1.id = p.nextJobId ∧
      (serverCreateJob p req).2.nextJobId = p.nextJobId + 1 ∧
      (serverCreateJob p req).1 ∈ (serverCreateJob p req).2.jobs ∧
      (serverCreateJob p req).1 ∈ (serverCreateJob p req).2.activeJobs := by
  refine ⟨rfl, rfl, rfl, ?_, ?_⟩
  · exact self_mem_insertAllJobs _ _
  · exact self_mem_insertActive _ _

/-- Bit of the `job-fetchable` job-state-reason in the
`server_jreason_t` mask. Modelled from the spec: the enumeration lives in
`ippserver.h`, which is not among the provided sources; the spec names a
"fetchable bit" of the job-state-reasons bitmask, and the claims depend
only on it being one fixed bit. -/
def SERVER_JREASON_JOB_FETCHABLE : Nat := 1 <<< 10

/-- The state read and written by `serverProcessJob`: the job's state,
state-reasons mask and processing timestamp, the owning printer's state
and `processing_job` pointer (modelled by the job id), the printer's set
of registered output devices (identified by UUID), and the emitted event
log. -/
structure ProcessJobState where
  jobState : JState
  jobStateReasons : Nat
  jobProcessingTime : Int
  printerState : PState
  printerProcessingJob : Option Nat
  registeredDevices : List String
  events : List String
deriving DecidableEq, Repr

/-- `serverProcessJob` from `job.c`: sets the job state to `processing`,
the printer state to `processing`, timestamps the transition and points
`printer->processing_job` at the job, emitting a job-state-changed event;
then — without running any transform and without consulting the printer's
registered devices — sets the job state to `processing-stopped`, ORs the
`job-fetchable` bit into the job-state-reasons mask, and emits a second
job-state-changed event. -/
def serverProcessJob (jobId : Nat) (now : Int) (s : ProcessJobState) : ProcessJobState :=
  let s1 : ProcessJobState :=
    { s with
      jobState := .processing
      printerState := .processing
      jobProcessingTime := now
      printerProcessingJob := some jobId
      events := s.events ++ ["job-state-changed: Job processing."] }
  { s1 with
    jobState := .stopped
    jobStateReasons := s1.jobStateReasons ||| SERVER_JREASON_JOB_FETCHABLE
    events := s1.events ++ ["job-state-changed: Job fetchable."] }

/-- A concrete pre-processing state for a pending job on an idle printer
with NO registered output device. -/
def cexProcState0 : ProcessJobState :=
  { jobState := .pending
    jobStateReasons := 0
    jobProcessingTime := 0
    printerState := .idle
    printerProcessingJob := none
    registeredDevices := []
    events := [] }

/-- Claim C1 counterexample: processing a job on a printer with no
registered output device still ends with the job in `processing-stopped`
carrying the `job-fetchable` state-reason — the transition is not
restricted to printers with a registered remote output device, and no
transform-indicated terminal state, `processing-job = null`, or idle
printer state is ever produced. -/
theorem claim_C1_counterexample :
    cexProcState0.registeredDevices = [] ∧
      (serverProcessJob 1 100 cexProcState0).jobState = JState.stopped ∧
      (serverProcessJob 1 100 cexProcState0).jobStateReasons &&&
        SERVER_JREASON_JOB_FETCHABLE ≠ 0 ∧
      (serverProcessJob 1 100 cexProcState0).printerProcessingJob = some 1 ∧
      (serverProcessJob 1 100 cexProcState0).printerState = PState.processing := by
  refine ⟨rfl, rfl, by decide, rfl, rfl⟩

/-- Claim C1 (amended): the processing task first sets the job state to
`processing`, the printer state to `processing`, and the printer's
processing-job to the job; it then unconditionally — without running a
transform and regardless of whether a remote output device has registered
— transitions the job to `processing-stopped` with the `job-fetchable`
state-reason and emits the two job-state-changed events, leaving the
printer in `processing` with `processing_job` still pointing at the job. -/
theorem claim_C1_amended (jobId : Nat) (now : Int) (s : ProcessJobState) :
    (serverProcessJob jobId now s).jobState = JState.stopped ∧
      (serverProcessJob jobId now s).jobStateReasons =
        s.jobStateReasons ||| SERVER_JREASON_JOB_FETCHABLE ∧
      (serverProcessJob jobId now s).printerState = PState.processing ∧
      (serverProcessJob jobId now s).printerProcessingJob = some jobId ∧
      (serverProcessJob jobId now s).jobProcessingTime = now ∧
      (serverProcessJob jobId now s).registeredDevices = s.registeredDevices ∧
      (serverProcessJob jobId now s).events =
        s.events ++ ["job-state-changed: Job processing.",
          "job-state-changed: Job fetchable."] := by
  refine ⟨rfl, rfl, rfl, rfl, rfl, rfl, ?_⟩
  simp [serverProcessJob]

end IppServer

namespace PackBits

/-- The repeated-sequence scan of `pcl_write_line` (`ipptransform.c`):
entered with `count` bytes of the run already consumed and the input
positioned on the last consumed byte. It advances while at least two
bytes remain (`outptr < outend - 1`), the current and next byte are equal,
and `count < 127`; on exit it emits the byte under the cursor
(`*outptr++`). Returns the final count, the emitted byte, and the
remaining input after the cursor. -/
def runScan (count : Nat) : List Nat → Nat × Nat × List Nat
  | x :: y :: xs =>
      if x = y ∧ count < 127 then runScan (count + 1) (y :: xs)
      else (count, x, y :: xs)
  | [x] => (count, x, [])
  | [] => (count, 0, [])

/-- The non-repeated-sequence scan of `pcl_write_line`: entered with
`count` literal bytes accepted and the input positioned on the next
candidate. It advances while at least two bytes remain, the current and
next byte differ, and `count < 127`. Returns the final count and the
input from the cursor (the literal bytes themselves are copied from
`start` by the caller). -/
def litScan (count : Nat) : List Nat → Nat × List Nat
  | x :: y :: xs =>
      if x ≠ y ∧ count < 127 then litScan (count + 1) (y :: xs)
      else (count, x :: y :: xs)
  | l => (count, l)

/-- The PackBits compression loop of `pcl_write_line`, fuel-indexed (the
fuel only bounds the number of outer iterations; each iteration consumes
at least one input byte, so `encodeGo l.length l` runs the loop to
completion). A final single byte is emitted as `0x00 byte`; a repeated
pair starts a run scan emitting `(257 - count) byte`; otherwise a literal
scan emits `(count - 1)` followed by the `count` bytes. -/
def encodeGo : Nat → List Nat → List Nat
  | _, [] => []
  | 0, _ :: _ => []
  | _ + 1, [b] => [0, b]
  | fuel + 1, b0 :: b1 :: rest =>
      if b0 = b1 then
        let r := runScan 2 (b1 :: rest)
        (257 - r.1) :: r.2.1 :: encodeGo fuel r.2.2
      else
        let r := litScan 1 (b1 :: rest)
        (r.1 - 1) :: ((b0 :: b1 :: rest).take r.1 ++ encodeGo fuel r.2)

/-- The PackBits compressor of the PCL back-end applied to one
(dithered) row of bytes. -/
def packbitsEncode (l : List Nat) : List Nat :=
  encodeGo l.length l

/-- PackBits decoding per the rules quoted in the claim: a header byte
`h < 128` copies the next `h + 1` literal bytes; `h > 128` repeats the
next byte `257 - h` times; `h = 128` is a no-op (the encoder never emits
it). Fuel-indexed like `encodeGo`. -/
def decodeGo : Nat → List Nat → List Nat
  | _, [] => []
  | 0, _ :: _ => []
  | fuel + 1, h :: rest =>
      if h < 128 then rest.take (h + 1) ++ decodeGo fuel (rest.drop (h + 1))
      else if h = 128 then decodeGo fuel rest
      else
        match rest with
        | [] => []
        | b :: rest2 => List.replicate (257 - h) b ++ decodeGo fuel rest2

/-- PackBits decoding of a whole stream. -/
def packbitsDecode (l : List Nat) : List Nat :=
  decodeGo l.length l

/-- Unfolding equation for `runScan` on two or more bytes. -/
theorem runScan_cons2 (c x y : Nat) (xs : List Nat) :
    runScan c (x :: y :: xs) =
      if x = y ∧ c < 127 then runScan (c + 1) (y :: xs) else (c, x, y :: xs) := rfl

/-- Unfolding equation for `litScan` on two or more bytes. -/
theorem litScan_cons2 (c x y : Nat) (xs : List Nat) :
    litScan c (x :: y :: xs) =
      if x ≠ y ∧ c < 127 then litScan (c + 1) (y :: xs) else (c, x :: y :: xs) := rfl

/-- Unfolding equation for `encodeGo` with positive fuel on two or more
bytes. -/
theorem encodeGo_cons2 (fuel b0 b1 : Nat) (rest : List Nat) :
    encodeGo (fuel + 1) (b0 :: b1 :: rest) =
      if b0 = b1 then
        (257 - (runScan 2 (b1 :: rest)).1) :: (runScan 2 (b1 :: rest)).2.1 ::
          encodeGo fuel (runScan 2 (b1 :: rest)).2.2
      else
        ((litScan 1 (b1 :: rest)).1 - 1) ::
          ((b0 :: b1 :: rest).take (litScan 1 (b1 :: rest)).1 ++
            encodeGo fuel (litScan 1 (b1 :: rest)).2) := rfl

/-- Unfolding equation for `decodeGo` with positive fuel on a nonempty
stream. -/
theorem decodeGo_cons (fuel h : Nat) (rest : List Nat) :
    decodeGo (fuel + 1) (h :: rest) =
      if h < 128 then rest.take (h + 1) ++ decodeGo fuel (rest.drop (h + 1))
      else if h = 128 then decodeGo fuel rest
      else
        match rest with
        | [] => []
        | b :: rest2 => List.replicate (257 - h) b ++ decodeGo fuel rest2 := rfl

/-- What `runScan` computes when started on a byte `x`: it consumes a
nonempty all-`x` run of `k - c + 1` bytes (capped by `count < 127`),
emits `x`, and leaves the rest. -/
theorem runScan_spec (l : List Nat) : ∀ c x : Nat, c ≤ 127 →
    ∃ k rem, runScan c (x :: l) = (k, x, rem) ∧ c ≤ k ∧ k ≤ 127 ∧
      x :: l = List.replicate (k - c + 1) x ++ rem := by
  induction l with
  | nil =>
      intro c x hc
      exact ⟨c, [], rfl, le_refl c, hc, by simp⟩
  | cons y xs ih =>
      intro c x hc
      by_cases hxy : x = y ∧ c < 127
      · obtain ⟨hxy1, hxy2⟩ := id hxy
        obtain ⟨k, rem, heq, hk1, hk2, hrep⟩ := ih (c + 1) y (by omega)
        subst hxy1
        refine ⟨k, rem, ?_, by omega, hk2, ?_⟩
        · rw [runScan, if_pos ⟨rfl, hxy.right⟩, heq]
        · have harith : k - c + 1 = (k - (c + 1) + 1) + 1 := by omega
          rw [harith, List.replicate_succ, List.cons_append, ← hrep]
      · refine ⟨c, y :: xs, ?_, le_refl c, hc, by simp⟩
        rw [runScan, if_neg hxy]

/-- What `litScan` computes: it accepts `k - c` further literal bytes
(capped by `count < 127`) and leaves the input from its cursor, which is
the input with those bytes dropped. -/
theorem litScan_spec (l : List Nat) : ∀ c : Nat, c ≤ 127 →
    ∃ k, litScan c l = (k, l.drop (k - c)) ∧ c ≤ k ∧ k ≤ 127 ∧
      k - c ≤ l.length := by
  induction l with
  | nil =>
      intro c hc
      exact ⟨c, by simp [litScan], le_refl c, hc, by simp⟩
  | cons x xs ih =>
      intro c hc
      cases xs with
      | nil =>
          exact ⟨c, by simp [litScan], le_refl c, hc, by simp⟩
      | cons y ys =>
          by_cases hxy : x ≠ y ∧ c < 127
          · obtain ⟨k, heq, hk1, hk2, hlen⟩ := ih (c + 1) (by omega)
            refine ⟨k, ?_, by omega, hk2, ?_⟩
            · rw [litScan, if_pos hxy, heq]
              have harith : k - c = (k - (c + 1)) + 1 := by omega
              rw [harith, List.drop_succ_cons]
            · simp only [List.length_cons] at *
              omega
          · refine ⟨c, ?_, le_refl c, hc, by simp⟩
            rw [litScan, if_neg hxy]
            simp

/-- The encoder is insensitive to the exact fuel as long as the fuel is
at least the input length. -/
theorem encodeGo_irrel : ∀ f g l, l.length ≤ f → l.length ≤ g →
    encodeGo f l = encodeGo g l := by
  intro f
  induction f with
  | zero =>
      intro g l hf _
      have : l = [] := List.length_eq_zero.mp (by omega)
      subst this
      cases g <;> rfl
  | succ f ih =>
      intro g l hf hg
      cases l with
      | nil => cases g <;> rfl
      | cons b0 t =>
          cases t with
          | nil =>
              cases g with
              | zero => simp at hg
              | succ g => rfl
          | cons b1 rest =>
              cases g with
              | zero => simp at hg
              | succ g =>
                  simp only [List.length_cons] at hf hg
                  by_cases hb : b0 = b1
                  · obtain ⟨k, rem, heq, hk1, hk2, hrep⟩ :=
                      runScan_spec rest 2 b1 (by omega)
                    have hlen : rest.length + 1 = (k - 2 + 1) + rem.length := by
                      have := congrArg List.length hrep
                      simpa using this
                    rw [encodeGo, encodeGo, if_pos hb, if_pos hb, heq]
                    simp only
                    rw [ih g rem (by omega) (by omega)]
                  · obtain ⟨k, heq, hk1, hk2, hlen⟩ :=
                      litScan_spec (b1 :: rest) 1 (by omega)
                    simp only [List.length_cons] at hlen
                    rw [encodeGo, encodeGo, if_neg hb, if_neg hb, heq]
                    simp only
                    rw [ih g ((b1 :: rest).drop (k - 1))
                      (by simp only [List.length_drop, List.length_cons]; omega)
                      (by simp only [List.length_drop, List.length_cons]; omega)]

/-- The decoder is insensitive to the exact fuel as long as the fuel is
at least the input length. -/
theorem decodeGo_irrel : ∀ f g l, l.length ≤ f → l.length ≤ g →
    decodeGo f l = decodeGo g l := by
  intro f
  induction f with
  | zero =>
      intro g l hf _
      have : l = [] := List.length_eq_zero.mp (by omega)
      subst this
      cases g <;> rfl
  | succ f ih =>
      intro g l hf hg
      cases l with
      | nil => cases g <;> rfl
      | cons h rest =>
          cases g with
          | zero => simp at hg
          | succ g =>
              simp only [List.length_cons] at hf hg
              rw [decodeGo_cons, decodeGo_cons]
              by_cases h1 : h < 128
              · rw [if_pos h1, if_pos h1,
                  ih g (rest.drop (h + 1)) (by simp [List.length_drop]; omega)
                    (by simp [List.length_drop]; omega)]
              · rw [if_neg h1, if_neg h1]
                by_cases h2 : h = 128
                · rw [if_pos h2, if_pos h2, ih g rest (by omega) (by omega)]
                · rw [if_neg h2, if_neg h2]
                  cases rest with
                  | nil => rfl
                  | cons b rest2 =>
                      simp only [List.length_cons] at hf hg
                      show List.replicate (257 - h) b ++ decodeGo f rest2 =
                        List.replicate (257 - h) b ++ decodeGo g rest2
                      rw [ih g rest2 (by omega) (by omega)]

/-- Decoding a literal block: header `h < 128` copies the next `h + 1`
bytes. -/
theorem packbitsDecode_lit (h : Nat) (rest : List Nat) (hh : h < 128) :
    packbitsDecode (h :: rest) =
      rest.take (h + 1) ++ packbitsDecode (rest.drop (h + 1)) := by
  show decodeGo (rest.length + 1) (h :: rest) = _
  rw [decodeGo_cons, if_pos hh, packbitsDecode,
    decodeGo_irrel rest.length (rest.drop (h + 1)).length (rest.drop (h + 1))
      (by simp [List.length_drop]) (le_refl _)]

/-- Decoding a run block: header `h > 128` repeats the next byte
`257 - h` times. -/
theorem packbitsDecode_run (h b : Nat) (rest : List Nat) (hh : 128 < h) :
    packbitsDecode (h :: b :: rest) =
      List.replicate (257 - h) b ++ packbitsDecode rest := by
  show decodeGo (rest.length + 2) (h :: b :: rest) = _
  rw [show rest.length + 2 = (rest.length + 1) + 1 from rfl,
    decodeGo_cons, if_neg (by omega), if_neg (by omega)]
  show List.replicate (257 - h) b ++ decodeGo (rest.length + 1) rest = _
  rw [packbitsDecode, decodeGo_irrel (rest.length + 1) rest.length rest
    (by omega) (le_refl _)]

/-- Round trip of the fuel-indexed encoder: decoding the encoding of any
byte list recovers the list. -/
theorem decode_encodeGo : ∀ f l, l.length ≤ f →
    packbitsDecode (encodeGo f l) = l := by
  intro f
  induction f with
  | zero =>
      intro l hf
      have : l = [] := List.length_eq_zero.mp (by omega)
      subst this
      rfl
  | succ f ih =>
      intro l hf
      cases l with
      | nil => rfl
      | cons b0 t =>
          cases t with
          | nil =>
              show packbitsDecode [0, b0] = [b0]
              rw [packbitsDecode_lit 0 [b0] (by omega)]
              simp
              rfl
          | cons b1 rest =>
              simp only [List.length_cons] at hf
              by_cases hb : b0 = b1
              · obtain ⟨k, rem, heq, hk1, hk2, hrep⟩ :=
                  runScan_spec rest 2 b1 (by omega)
                have hlen : rest.length + 1 = (k - 2 + 1) + rem.length := by
                  have := congrArg List.length hrep
                  simpa using this
                rw [encodeGo, if_pos hb, heq]
                simp only
                rw [packbitsDecode_run (257 - k) b1 (encodeGo f rem) (by omega)]
                have h257 : 257 - (257 - k) = k := by omega
                rw [h257, ih rem (by omega)]
                have hk' : k = (k - 2 + 1) + 1 := by omega
                rw [hb, hk', List.replicate_succ, List.cons_append, ← hrep]
              · obtain ⟨k, heq, hk1, hk2, hklen⟩ :=
                  litScan_spec (b1 :: rest) 1 (by omega)
                simp only [List.length_cons] at hklen
                rw [encodeGo_cons2, if_neg hb, heq]
                have hdrop : (b0 :: b1 :: rest).drop k = (b1 :: rest).drop (k - 1) := by
                  obtain ⟨m, rfl⟩ : ∃ m, k = m + 1 := ⟨k - 1, by omega⟩
                  simp
                have htlen : ((b0 :: b1 :: rest).take k).length = k := by
                  simp only [List.length_take, List.length_cons]
                  omega
                rw [packbitsDecode_lit (k - 1) _ (by omega)]
                have hk1' : k - 1 + 1 = k := by omega
                rw [hk1', List.take_left' htlen, List.drop_left' htlen]
                rw [← hdrop, ih ((b0 :: b1 :: rest).drop k)
                  (by simp only [List.length_drop, List.length_cons]; omega)]
                exact List.take_append_drop k (b0 :: b1 :: rest)

/-- `runScan` on a run of `m + 1` equal bytes followed by input that does
not start with that byte consumes the whole run and emits the run byte. -/
theorem runScan_replicate : ∀ (m c b : Nat) (rest : List Nat),
    c + m ≤ 127 → rest.head? ≠ some b →
    runScan c (b :: (List.replicate m b ++ rest)) = (c + m, b, rest) := by
  intro m
  induction m with
  | zero =>
      intro c b rest _ hhead
      cases rest with
      | nil => rfl
      | cons r rs =>
          have hrb : ¬ b = r := by
            intro h
            exact hhead (by simp [h])
          simp only [List.replicate, List.nil_append]
          rw [runScan_cons2, if_neg (by tauto), Nat.add_zero]
  | succ m ih =>
      intro c b rest hc hhead
      simp only [List.replicate_succ, List.cons_append]
      rw [runScan_cons2, if_pos ⟨rfl, by omega⟩,
        ih (c + 1) b rest (by omega) hhead]
      have : c + 1 + m = c + (m + 1) := by omega
      rw [this]

/-- `litScan` on a block of pairwise-adjacent-distinct bytes (whose last
byte also differs from `b`) followed by a `b b` run stops exactly at the
run, having accepted the whole block. -/
theorem litScan_chain : ∀ (l : List Nat) (c b : Nat) (rest : List Nat),
    c + l.length ≤ 127 → List.Chain' (fun x y => x ≠ y) (l ++ [b]) →
    litScan c (l ++ b :: b :: rest) = (c + l.length, b :: b :: rest) := by
  intro l
  induction l with
  | nil =>
      intro c b rest _ _
      simp only [List.nil_append, List.length_nil, Nat.add_zero]
      rw [litScan_cons2, if_neg (by tauto)]
  | cons a l' ih =>
      intro c b rest hc hchain
      cases l' with
      | nil =>
          have hab : a ≠ b := (List.chain'_cons.mp hchain).1
          simp only [List.cons_append, List.nil_append, List.length_cons,
            List.length_nil]
          rw [litScan_cons2, if_pos ⟨hab, by simp at hc; omega⟩,
            litScan_cons2, if_neg (by tauto)]
      | cons a2 l'' =>
          have haa : a ≠ a2 := (List.chain'_cons.mp hchain).1
          have hch : List.Chain' (fun x y => x ≠ y) ((a2 :: l'') ++ [b]) :=
            (List.chain'_cons.mp hchain).2
          simp only [List.cons_append, List.length_cons]
          rw [litScan_cons2, if_pos ⟨haa, by simp at hc; omega⟩]
          have := ih (c + 1) b rest (by simp at hc ⊢; omega) hch
          simp only [List.cons_append, List.length_cons] at this
          rw [this]
          have harith : c + 1 + (l''.length + 1) = c + (l''.length + 1 + 1) := by
            omega
          rw [harith]

/-- One compression step on a maximal run of `2 ≤ k ≤ 127` equal bytes:
the step emits `(257 - k)` and one copy of the byte and continues after
the run. -/
theorem encodeGo_run (f b k : Nat) (rest : List Nat) (h2 : 2 ≤ k)
    (h127 : k ≤ 127) (hhead : rest.head? ≠ some b) :
    encodeGo (f + 1) (List.replicate k b ++ rest) =
      (257 - k) :: b :: encodeGo f rest := by
  obtain ⟨m, rfl⟩ : ∃ m, k = m + 2 := ⟨k - 2, by omega⟩
  simp only [List.replicate_succ, List.cons_append]
  rw [encodeGo_cons2, if_pos rfl,
    runScan_replicate m 2 b rest (by omega) hhead]
  simp only
  have : 2 + m = m + 2 := by omega
  rw [this]

/-- One compression step on a literal block followed by a run: the step
emits `(count - 1)` and the block's bytes and continues at the run. -/
theorem encodeGo_lit (f : Nat) (l : List Nat) (b : Nat) (rest : List Nat)
    (hne : l ≠ []) (h127 : l.length ≤ 127)
    (hchain : List.Chain' (fun x y => x ≠ y) (l ++ [b])) :
    encodeGo (f + 1) (l ++ b :: b :: rest) =
      (l.length - 1) :: (l ++ encodeGo f (b :: b :: rest)) := by
  cases l with
  | nil => exact absurd rfl hne
  | cons a0 l0 =>
      cases l0 with
      | nil =>
          have hab : a0 ≠ b := (List.chain'_cons.mp hchain).1
          simp only [List.cons_append, List.nil_append, List.length_cons,
            List.length_nil]
          rw [encodeGo_cons2, if_neg hab, litScan_cons2, if_neg (by tauto)]
          simp
      | cons a1 l1 =>
          have haa : a0 ≠ a1 := (List.chain'_cons.mp hchain).1
          have hch : List.Chain' (fun x y => x ≠ y) ((a1 :: l1) ++ [b]) :=
            (List.chain'_cons.mp hchain).2
          simp only [List.cons_append, List.length_cons]
          rw [encodeGo_cons2, if_neg haa]
          have hscan := litScan_chain (a1 :: l1) 1 b rest
            (by simp only [List.length_cons] at h127 ⊢; omega) hch
          simp only [List.cons_append, List.length_cons] at hscan
          rw [hscan]
          simp only
          have harith : 1 + (l1.length + 1) = l1.length + 1 + 1 := by omega
          rw [harith,
            show a0 :: a1 :: (l1 ++ b :: b :: rest) =
              (a0 :: a1 :: l1) ++ (b :: b :: rest) from by simp,
            List.take_left' (by simp)]
          simp

/-- Claim C7 counterexample: the compressor caps runs and literals at 127
bytes and always emits the final byte of a trailing literal as its own
`0x00`-headed single-byte block, so a maximal run of 128 equal bytes is
NOT emitted as the single block `(257 - 128) byte`, and a literal run of
2 bytes ending the row is NOT emitted as `(2 - 1) byte byte`. -/
theorem claim_C7_counterexample :
    packbitsEncode (List.replicate 128 7) = [130, 7, 0, 7] ∧
      packbitsEncode (List.replicate 128 7) ≠ [257 - 128, 7] ∧
      packbitsEncode [1, 2] = [0, 1, 0, 2] ∧
      packbitsEncode [1, 2] ≠ [2 - 1, 1, 2] := by
  refine ⟨by decide, by decide, by decide, by decide⟩

/-- Claim C7 (amended): in the PCL back-end's PackBits compressor, a
maximal run of `k` equal bytes with `2 ≤ k ≤ 127` (not followed by the
same byte) is encoded as the single header byte `257 - k` followed by one
copy of the repeated byte, and a literal (pairwise adjacent-distinct)
block of `k` bytes with `1 ≤ k ≤ 127` that is followed by a repeated pair
is encoded as the header byte `k - 1` followed by the `k` bytes; runs
longer than 127 bytes are split, and the final byte of a row that ends in
a literal is emitted as its own `0x00`-headed block. -/
theorem claim_C7_amended :
    (∀ (b k : Nat) (rest : List Nat), 2 ≤ k → k ≤ 127 →
        rest.head? ≠ some b →
        packbitsEncode (List.replicate k b ++ rest) =
          (257 - k) :: b :: packbitsEncode rest) ∧
    (∀ (l : List Nat) (b : Nat) (rest : List Nat), l ≠ [] → l.length ≤ 127 →
        List.Chain' (fun x y => x ≠ y) (l ++ [b]) →
        packbitsEncode (l ++ b :: b :: rest) =
          (l.length - 1) :: (l ++ packbitsEncode (b :: b :: rest))) := by
  constructor
  · intro b k rest h2 h127 hhead
    have hlen : (List.replicate k b ++ rest).length = (k + rest.length - 1) + 1 := by
      simp only [List.length_append, List.length_replicate]
      omega
    rw [packbitsEncode, hlen, encodeGo_run _ b k rest h2 h127 hhead,
      packbitsEncode, encodeGo_irrel (k + rest.length - 1) rest.length rest
        (by have := h2; omega) (le_refl _)]
  · intro l b rest hne h127 hchain
    have hlen : (l ++ b :: b :: rest).length = (l.length + rest.length + 1) + 1 := by
      simp only [List.length_append, List.length_cons]
      omega
    rw [packbitsEncode, hlen, encodeGo_lit _ l b rest hne h127 hchain,
      packbitsEncode, encodeGo_irrel (l.length + rest.length + 1)
        (b :: b :: rest).length (b :: b :: rest)
        (by simp only [List.length_cons]
            have := List.length_pos.mpr hne
            omega)
        (le_refl _)]

/-- Claim C7 witness: the amended theorem applied to a run of three 7s
followed by a 1, and to the literal block `[1, 2]` followed by the run
`9 9`. -/
theorem claim_C7_witness :
    packbitsEncode (List.replicate 3 7 ++ [1]) = (257 - 3) :: 7 :: packbitsEncode [1] ∧
      packbitsEncode ([1, 2] ++ 9 :: 9 :: []) =
        ([1, 2].length - 1) :: ([1, 2] ++ packbitsEncode (9 :: 9 :: [])) :=
  ⟨claim_C7_amended.1 7 3 [1] (by decide) (by decide) (by decide),
   claim_C7_amended.2 [1, 2] 9 [] (by decide) (by decide)
     (by simp [List.chain'_cons, List.chain'_singleton])⟩

/-- Claim C8: decoding (per the PackBits rules: a header byte `h < 128`
copies the next `h + 1` literal bytes, a header byte `h > 128` repeats
the next byte `257 - h` times) the stream produced by the PCL back-end's
PackBits compressor yields exactly the original byte sequence, for every
input of length at most 128 KiB. -/
theorem claim_C8 (l : List Nat) (h : l.length ≤ 131072) :
    packbitsDecode (packbitsEncode l) = l :=
  decode_encodeGo l.length l (le_refl _)

/-- Claim C8 witness: round trip at the concrete row `[1, 1, 1, 2]`. -/
theorem claim_C8_witness :
    packbitsDecode (packbitsEncode [1, 1, 1, 2]) = [1, 1, 1, 2] :=
  claim_C8 [1, 1, 1, 2] (by decide)

end PackBits

namespace StateMsg

/-- `state_reasons |= bit` in `process_state_message`, with `bit = 2^i`
(the loop starts at `bit = 1` and doubles it per table entry). -/
def setReason (m i : Nat) : Nat := m ||| 2 ^ i

/-- `state_reasons &= ~bit` in `process_state_message`: on the fixed-width
unsigned `server_preason_t` (32 bits; the exact width is irrelevant to the
claims since the keyword table is no longer than the word), the complement
`~bit` equals `(2^32 - 1) XOR bit`. -/
def clearReason (m i : Nat) : Nat := m &&& ((2 ^ 32 - 1) ^^^ 2 ^ i)

/-- The inner table loop of `process_state_message`: for each entry of
`server_preasons` (paired with its bit), a keyword equal to the entry sets
or clears that bit, depending on whether the message began with `-`.
There is no `break`: every matching entry is applied. -/
def applyKeywordGo (rm : Bool) (kw : List Char) :
    List (List Char) → Nat → Nat → Nat
  | [], _, m => m
  | t :: ts, i, m =>
      applyKeywordGo rm kw ts (i + 1)
        (if t = kw then (if rm then clearReason m i else setReason m i) else m)

/-- Whether bit `j` belongs to some table entry (from index `i` on) equal
to the keyword. -/
def kwMatchBit (kw : List Char) : List (List Char) → Nat → Nat → Bool
  | [], _, _ => false
  | t :: ts, i, j => (decide (t = kw) && decide (j = i)) || kwMatchBit kw ts (i + 1) j

/-- Whether any table entry equals the keyword. -/
def kwAny (kw : List Char) (table : List (List Char)) : Bool :=
  table.any fun t => decide (t = kw)

/-- Bit `j` of `setReason m i`. -/
theorem testBit_setReason (m i j : Nat) :
    (setReason m i).testBit j = (m.testBit j || decide (j = i)) := by
  simp [setReason, Nat.testBit_lor, Nat.testBit_two_pow, eq_comm]

/-- Bit `j` of `clearReason m i` (for an in-range bit index `i`). -/
theorem testBit_clearReason (m i j : Nat) (hi : i < 32) :
    (clearReason m i).testBit j =
      (m.testBit j && decide (j < 32) && !decide (j = i)) := by
  simp only [clearReason, Nat.testBit_land, Nat.testBit_xor,
    Nat.testBit_two_pow_sub_one, Nat.testBit_two_pow]
  by_cases h2 : j = i
  · subst h2
    simp [hi]
  · have h2' : ¬ i = j := fun h => h2 h.symm
    simp [h2, h2']

/-- Bit `j` after the setting pass of the table loop. -/
theorem testBit_applySet (kw : List Char) :
    ∀ (table : List (List Char)) (i m j : Nat),
      (applyKeywordGo false kw table i m).testBit j =
        (m.testBit j || kwMatchBit kw table i j) := by
  intro table
  induction table with
  | nil => intro i m j; simp [applyKeywordGo, kwMatchBit]
  | cons t ts ih =>
      intro i m j
      rw [applyKeywordGo, kwMatchBit, ih]
      by_cases ht : t = kw
      · rw [if_pos ht, decide_eq_true ht]
        have hif : (if (false : Bool) = true then clearReason m i
            else setReason m i) = setReason m i := rfl
        rw [hif, testBit_setReason]
        cases hm : m.testBit j <;> cases hj : decide (j = i) <;>
          cases hb : kwMatchBit kw ts (i + 1) j <;> simp [hm, hj, hb]
      · rw [if_neg ht, decide_eq_false ht]
        simp

/-- Bit `j` after the clearing pass of the table loop: the matched bits
are cleared, and (because `~bit` also truncates to the word width) any
bit at or above the width is cleared as soon as some entry matches. -/
theorem testBit_applyClear (kw : List Char) :
    ∀ (table : List (List Char)) (i m j : Nat), i + table.length ≤ 32 →
      (applyKeywordGo true kw table i m).testBit j =
        (m.testBit j && !kwMatchBit kw table i j &&
          (!kwAny kw table || decide (j < 32))) := by
  intro table
  induction table with
  | nil => intro i m j _; simp [applyKeywordGo, kwMatchBit, kwAny]
  | cons t ts ih =>
      intro i m j hlen
      simp only [List.length_cons] at hlen
      rw [applyKeywordGo, kwMatchBit]
      rw [ih (i + 1) _ j (by omega)]
      by_cases ht : t = kw
      · rw [if_pos ht, decide_eq_true ht]
        have hif : (if (true : Bool) = true then clearReason m i
            else setReason m i) = clearReason m i := rfl
        rw [hif, testBit_clearReason m i j (by omega)]
        have hany : kwAny kw (t :: ts) = true := by simp [kwAny, ht]
        rw [hany]
        cases hm : m.testBit j <;> cases hj32 : decide (j < 32) <;>
          cases hji : decide (j = i) <;>
          cases hmb : kwMatchBit kw ts (i + 1) j <;>
          cases ha : kwAny kw ts <;>
            simp [hm, hj32, hji, hmb, ha]
      · rw [if_neg ht, decide_eq_false ht]
        have hany : kwAny kw (t :: ts) = kwAny kw ts := by simp [kwAny, ht]
        rw [hany]
        simp

/-- Clearing a keyword's bits immediately after setting them gives the
same mask as clearing them from the original mask. -/
theorem applyClear_applySet (kw : List Char) (table : List (List Char))
    (m : Nat) (hlen : table.length ≤ 32) :
    applyKeywordGo true kw table 0 (applyKeywordGo false kw table 0 m) =
      applyKeywordGo true kw table 0 m := by
  apply Nat.eq_of_testBit_eq
  intro j
  rw [testBit_applyClear kw table 0 _ j (by omega),
    testBit_applyClear kw table 0 m j (by omega), testBit_applySet]
  cases h1 : kwMatchBit kw table 0 j <;> simp [h1]

/-- The comma-splitting loop of `process_state_message`: each iteration
cuts the keyword before the first comma (`strchr` + `*next++ = 0`) and
continues after it while characters remain (fuel = input length). -/
def splitKwGo : Nat → List Char → List (List Char)
  | _, [] => []
  | 0, _ :: _ => []
  | fuel + 1, c :: cs =>
      match (c :: cs).dropWhile (fun ch => ch != ',') with
      | [] => [(c :: cs).takeWhile (fun ch => ch != ',')]
      | _ :: after =>
          (c :: cs).takeWhile (fun ch => ch != ',') :: splitKwGo fuel after

/-- Comma splitting of a whole keyword list. -/
def splitKw (l : List Char) : List (List Char) := splitKwGo l.length l

/-- `strstr`: the index of the first occurrence of `pat`, if any. -/
def findSub (pat : List Char) : List Char → Option Nat
  | [] => if pat = [] then some 0 else none
  | c :: rest =>
      if List.isPrefixOf pat (c :: rest) then some 0
      else (findSub pat rest).map (· + 1)

/-- The RFC 2911 suffix stripping of `process_state_message`: truncate
the keyword at the first occurrence of `-error`, else of `-report`, else
of `-warning`. -/
def stripSuffixKw (kw : List Char) : List Char :=
  match findSub "-error".data kw with
  | some i => kw.take i
  | none =>
      match findSub "-report".data kw with
      | some i => kw.take i
      | none =>
          match findSub "-warning".data kw with
          | some i => kw.take i
          | none => kw

/-- The whitespace skipped after `STATE:` (space and tab). -/
def isSpaceTab (c : Char) : Bool := c == ' ' || c == '\t'

/-- `process_state_message` from `transform.c`: skip the 6-byte `STATE:`
tag and any spaces/tabs; a leading `-` removes the listed keywords from
`printer->state_reasons`, a leading `+` adds them, and no prefix replaces
the whole mask with exactly the listed keywords (starting from 0). Each
comma-separated keyword is suffix-stripped and looked up against every
`server_preasons` entry. -/
def process_state_message (table : List (List Char)) (current : Nat)
    (line : List Char) : Nat :=
  match (line.drop 6).dropWhile isSpaceTab with
  | '-' :: rest =>
      (splitKw rest).foldl
        (fun m kw => applyKeywordGo true (stripSuffixKw kw) table 0 m) current
  | '+' :: rest =>
      (splitKw rest).foldl
        (fun m kw => applyKeywordGo false (stripSuffixKw kw) table 0 m) current
  | body =>
      (splitKw body).foldl
        (fun m kw => applyKeywordGo false (stripSuffixKw kw) table 0 m) 0

/-- Modelled from the spec: the `server_preasons` keyword table is
declared in `ippserver.h`, which is not among the provided sources; the
spec names these printer-state-reasons keywords (media-empty, media-low,
toner-low, marker-waste-full, cover-open, paused, …). The theorems below
are proved for an arbitrary table; this one only feeds the concrete
counterexample and witness. -/
def specPreasons : List (List Char) :=
  ["media-empty".data, "media-low".data, "toner-low".data,
    "marker-waste-full".data, "cover-open".data, "paused".data]

/-- A `STATE:` stderr line with the given sign and keyword text. -/
def stateMsg (sign : Char) (x : List Char) : List Char :=
  'S' :: 'T' :: 'A' :: 'T' :: 'E' :: ':' :: ' ' :: sign :: x

/-- Reduction of `process_state_message` on a `+` message. -/
theorem process_state_plus (table : List (List Char)) (m : Nat) (x : List Char) :
    process_state_message table m (stateMsg '+' x) =
      (splitKw x).foldl
        (fun m kw => applyKeywordGo false (stripSuffixKw kw) table 0 m) m := rfl

/-- Reduction of `process_state_message` on a `-` message. -/
theorem process_state_minus (table : List (List Char)) (m : Nat) (x : List Char) :
    process_state_message table m (stateMsg '-' x) =
      (splitKw x).foldl
        (fun m kw => applyKeywordGo true (stripSuffixKw kw) table 0 m) m := rfl

/-- A comma-free nonempty keyword splits into itself alone. -/
theorem splitKw_single (x : List Char) (hx : x ≠ []) (hc : ',' ∉ x) :
    splitKw x = [x] := by
  cases x with
  | nil => exact absurd rfl hx
  | cons c cs =>
      have hdrop : (c :: cs).dropWhile (fun ch => ch != ',') = [] := by
        rw [List.dropWhile_eq_nil_iff]
        intro a ha
        simp only [bne_iff_ne, ne_eq]
        intro h
        exact hc (h ▸ ha)
      have htake : (c :: cs).takeWhile (fun ch => ch != ',') = c :: cs := by
        rw [List.takeWhile_eq_self_iff]
        intro a ha
        simp only [bne_iff_ne, ne_eq]
        intro h
        exact hc (h ▸ ha)
      show splitKwGo (cs.length + 1) (c :: cs) = [c :: cs]
      rw [splitKwGo, hdrop, htake]

/-- Claim C5 counterexample: with the mask initially containing
`media-empty` (bit 0 set, mask 1), processing `STATE: +media-empty`
followed by `STATE: -media-empty` leaves the mask 0, not the initial 1:
the `-` message clears the bit regardless of whether it was set before
the `+` message. -/
theorem claim_C5_counterexample :
    process_state_message specPreasons
        (process_state_message specPreasons 1 (stateMsg '+' "media-empty".data))
        (stateMsg '-' "media-empty".data) = 0 ∧ (0 : Nat) ≠ 1 :=
  ⟨by decide, by decide⟩

/-- Claim C5 (amended): for every table, initial mask `M` and comma-free
keyword `X`, processing `STATE: +X` followed by `STATE: -X` yields the
same mask as processing `STATE: -X` alone — i.e. `M` with `X`'s bit(s)
cleared; this equals the initial mask exactly when the initial mask did
not already contain `X`'s bit. -/
theorem claim_C5_amended (table : List (List Char)) (m : Nat) (x : List Char)
    (hlen : table.length ≤ 32) (hx : ',' ∉ x) :
    process_state_message table
        (process_state_message table m (stateMsg '+' x)) (stateMsg '-' x) =
      process_state_message table m (stateMsg '-' x) := by
  rw [process_state_plus, process_state_minus, process_state_minus]
  by_cases hxe : x = []
  · subst hxe
    rfl
  · rw [splitKw_single x hxe hx]
    exact applyClear_applySet (stripSuffixKw x) table m hlen

/-- Claim C5 witness: the amended round trip at the spec keyword table,
initial mask 5, and the keyword `media-low`. -/
theorem claim_C5_witness :
    process_state_message specPreasons
        (process_state_message specPreasons 5 (stateMsg '+' "media-low".data))
        (stateMsg '-' "media-low".data) =
      process_state_message specPreasons 5 (stateMsg '-' "media-low".data) :=
  claim_C5_amended specPreasons 5 "media-low".data (by decide) (by decide)

/-- The printer/job attribute state visible to the stderr protocol of
`serverTransformJob`: the printer-state-reasons mask (updated by `STATE:`
lines) and the attribute table (the target of `ATTR:` lines). -/
structure TransformObs where
  printerStateReasons : Nat
  printerAttrs : List (List Char × List Char)
deriving DecidableEq, Repr

/-- `process_attr_message` from `transform.c`: its body is the empty stub
`(void)job; (void)message;` — it parses nothing and applies nothing. -/
def process_attr_message (obs : TransformObs) (message : List Char) :
    TransformObs :=
  obs

/-- The stderr line dispatch of `serverTransformJob`: lines starting with
`STATE:` update the printer-state-reasons mask via
`process_state_message`; lines starting with `ATTR:` are passed to
`process_attr_message`; other lines are only logged. -/
def processStderrLine (table : List (List Char)) (obs : TransformObs)
    (line : List Char) : TransformObs :=
  if List.isPrefixOf "STATE:".data line then
    { obs with
      printerStateReasons :=
        process_state_message table obs.printerStateReasons line }
  else if List.isPrefixOf "ATTR:".data line then
    process_attr_message obs line
  else
    obs

/-- A concrete attribute state with a nonempty attribute table. -/
def cexObs0 : TransformObs :=
  { printerStateReasons := 3
    printerAttrs := [("media".data, "na_letter_8.5x11in".data)] }

/-- Claim C6: an `ATTR:` stderr line is recognized and dispatched to
`process_attr_message`, but that function is an empty stub, so the named
attributes are never parsed or applied: the state after any `ATTR:` line
is identical to the state before it, contradicting the documented
contract ("Process printer attribute update") that the update take
effect. -/
theorem claim_C6_bug :
    processStderrLine specPreasons cexObs0
        "ATTR: media=na_letter_8.5x11in media-col=...".data = cexObs0 ∧
      (∀ (obs : TransformObs) (msg : List Char),
        process_attr_message obs msg = obs) :=
  ⟨by decide, fun _ _ => rfl⟩

end StateMsg

namespace Pcl

/-- The fields of the raster page header (`cups_page_header2_t`) that the
PCL back-end of `ipptransform.c` reads: resolution, pixel dimensions, the
PostScript-point page height `PageSize[1]`, and the duplex/tumble flags. -/
structure PclHeader where
  hwResolutionX : Nat
  hwResolutionY : Nat
  cupsWidth : Nat
  cupsHeight : Nat
  pageSizeY : Nat
  duplex : Bool
  tumble : Bool
deriving DecidableEq, Repr

/-- One PCL escape sequence (or control byte) emitted by the back-end;
each constructor mirrors one `pcl_printf`/write of `ipptransform.c`. -/
inductive PclTok where
  | reset
  | lpi12cpi10
  | portrait
  | pageSize (code : Nat)
  | topMargin (lines : Nat)
  | perfSkipOff
  | duplexMode (mode : Int)
  | backSide
  | resolutionCmd (dpi : Nat)
  | rasterWidth (px : Nat)
  | rasterHeight (px : Nat)
  | posHorizontal
  | posVertical (v : Nat)
  | compress2M
  | startGraphics
  | skipBlanks (n : Nat)
  | rasterData (bytes : List Nat)
  | endGraphics
  | formFeed
deriving DecidableEq, Repr

/-- The per-page raster state of `xform_raster_t` used by the PCL
back-end: the printable window margins and the pending blank-row count. -/
structure PclPageState where
  top : Nat
  bottom : Nat
  left : Nat
  right : Nat
  outBlanks : Nat
deriving DecidableEq, Repr

/-- `pcl_start_job`: a PCL reset (`ESC E`). -/
def pcl_start_job : List PclTok := [PclTok.reset]

/-- `pcl_end_job`: a final PCL reset (`ESC E`). -/
def pcl_end_job : List PclTok := [PclTok.reset]

/-- The duplex-mode computation of `pcl_start_page`, with C operator
precedence: `int mode = ras->header.Duplex ? 1 + ras->header.Tumble != 0
: 0` parses the true-branch as `(1 + Tumble) != 0`, which is always 1. -/
def pclDuplexMode (duplex tumble : Bool) : Int :=
  if duplex then
    (if 1 + (if tumble then (1 : Int) else 0) ≠ 0 then 1 else 0)
  else 0

/-- The page-size switch of `pcl_start_page`, keyed on the
PostScript-point page height; heights outside the table emit no page-size
command. -/
def pclPageSizeCode (h : Nat) : Option Nat :=
  if h = 540 then some 80
  else if h = 595 then some 25
  else if h = 624 then some 90
  else if h = 649 then some 91
  else if h = 684 then some 81
  else if h = 709 then some 100
  else if h = 756 then some 1
  else if h = 792 then some 2
  else if h = 842 then some 26
  else if h = 1008 then some 3
  else if h = 1191 then some 27
  else if h = 1224 then some 6
  else none

/-- `pcl_start_page` from `ipptransform.c` (pages numbered from 1):
computes the 1/6-inch top/bottom margins and the 1/4-inch (or A4-special)
side margins; on the front side of a sheet emits LPI/CPI, orientation,
the page-size command, top margin, perforation-skip off and — when duplex
— the duplex-mode command; on a back side emits the print-on-back
sequence; then always emits resolution, raster width/height, position,
PackBits compression select and start-graphics, and resets the blank-row
counter. -/
def pcl_start_page (hdr : PclHeader) (page : Nat) :
    PclPageState × List PclTok :=
  let top := hdr.hwResolutionY / 6
  let bottom := hdr.cupsHeight - hdr.hwResolutionY / 6 - 1
  let left :=
    if hdr.pageSizeY = 842 then (hdr.cupsWidth - 8 * hdr.hwResolutionX) / 2
    else hdr.hwResolutionX / 4
  let right :=
    if hdr.pageSizeY = 842 then
      (hdr.cupsWidth - 8 * hdr.hwResolutionX) / 2 + 8 * hdr.hwResolutionX - 1
    else hdr.cupsWidth - hdr.hwResolutionX / 4 - 1
  let sideToks :=
    if hdr.duplex = false ∨ page % 2 = 1 then
      [PclTok.lpi12cpi10, PclTok.portrait] ++
        (match pclPageSizeCode hdr.pageSizeY with
          | some c => [PclTok.pageSize c]
          | none => []) ++
        [PclTok.topMargin (12 * top / hdr.hwResolutionY), PclTok.perfSkipOff] ++
        (if hdr.duplex then
          [PclTok.duplexMode (pclDuplexMode hdr.duplex hdr.tumble)]
        else [])
    else if hdr.duplex then [PclTok.backSide]
    else []
  (⟨top, bottom, left, right, 0⟩,
    sideToks ++
      [PclTok.resolutionCmd hdr.hwResolutionX,
        PclTok.rasterWidth (right - left + 1),
        PclTok.rasterHeight (bottom - top + 1),
        PclTok.posHorizontal,
        PclTok.posVertical (720 * top / hdr.hwResolutionY),
        PclTok.compress2M, PclTok.startGraphics])

/-- The blank-row test of `pcl_write_line`: `line[0] == 255 &&
!memcmp(line, line + 1, ras->right - ras->left)` — the first
`right - left + 1` bytes of the row are all equal and the first is 255. -/
def blankRow (n : Nat) (row : List Nat) : Bool :=
  match row with
  | [] => false
  | b :: _ => b == 255 && (row.take n).all (fun c => c == 255)

/-- The dither loop bits: for column `x` from `left`, pixel byte `b`
produces a 1 bit when `b ≤ threshold[x mod 64][y mod 64]`. -/
def ditherBits (thr : Nat → Nat → Nat) (ymod : Nat) :
    Nat → List Nat → List Bool
  | _, [] => []
  | x, b :: bs =>
      decide (b ≤ thr (x % 64) ymod) :: ditherBits thr ymod (x + 1) bs

/-- MSB-first packing of one group of at most 8 bits into a byte (a
trailing partial byte is flushed with its low bits 0). -/
def byteOfBits (bits : List Bool) : Nat :=
  (bits.foldl (fun a b => 2 * a + (if b then 1 else 0)) 0) * 2 ^ (8 - bits.length)

/-- MSB-first packing of a bit row into bytes (fuel = number of bits). -/
def bitsToBytesGo : Nat → List Bool → List Nat
  | _, [] => []
  | 0, _ :: _ => []
  | fuel + 1, bits => byteOfBits (bits.take 8) :: bitsToBytesGo fuel (bits.drop 8)

/-- MSB-first packing of a whole bit row. -/
def bitsToBytes (bits : List Bool) : List Nat := bitsToBytesGo bits.length bits

/-- One dithered output row: the printable slice `[left, right]` of the
pixel row, dithered against the 64×64 threshold table at row `y mod 64`
and packed into bytes. -/
def ditherRow (thr : Nat → Nat → Nat) (left right y : Nat)
    (row : List Nat) : List Nat :=
  bitsToBytes (ditherBits thr (y % 64) left (row.take (right - left + 1)))

/-- `pcl_write_line` from `ipptransform.c`: a wholly white row only
increments the blank-row counter; otherwise the row is dithered,
PackBits-compressed, any pending blank rows are skipped with
`ESC *b{n}Y`, and the compressed bytes are emitted with `ESC *b{len}W`.
The 64×64 dither threshold table itself comes from `threshold64.h`, which
is not among the provided sources, so it is passed as the parameter
`thr`; no claim proved here depends on its values. -/
def pcl_write_line (thr : Nat → Nat → Nat) (st : PclPageState) (y : Nat)
    (row : List Nat) : PclPageState × List PclTok :=
  if blankRow (st.right - st.left + 1) row then
    ({ st with outBlanks := st.outBlanks + 1 }, [])
  else
    let comp := PackBits.packbitsEncode (ditherRow thr st.left st.right y row)
    ({ st with outBlanks := 0 },
      (if st.outBlanks > 0 then [PclTok.skipBlanks st.outBlanks] else []) ++
        [PclTok.rasterData comp])

/-- `pcl_end_page`: end graphics, then a form feed except on the odd
(front) page of a duplex sheet. -/
def pcl_end_page (hdr : PclHeader) (page : Nat) : List PclTok :=
  [PclTok.endGraphics] ++
    (if hdr.duplex = true ∧ page % 2 = 1 then [] else [PclTok.formFeed])

/-- The per-row loop of `xform_pdf`: one `write_line` per output row `y`
from `top` to `bottom`, threading the raster state and concatenating the
emitted sequences. -/
def pclWriteLines (thr : Nat → Nat → Nat) :
    PclPageState → Nat → List (List Nat) → PclPageState × List PclTok
  | st, _, [] => (st, [])
  | st, y, r :: rs =>
      let s1 := pcl_write_line thr st y r
      let s2 := pclWriteLines thr s1.1 (y + 1) rs
      (s2.1, s1.2 ++ s2.2)

/-- The byte stream (as escape-sequence tokens) of a one-page PCL job:
`start_job`, `start_page`, one `write_line` per output row, `end_page`,
`end_job`. -/
def pclOnePageJob (thr : Nat → Nat → Nat) (hdr : PclHeader)
    (rows : List (List Nat)) : List PclTok :=
  pcl_start_job ++ (pcl_start_page hdr 1).2 ++
    (pclWriteLines thr (pcl_start_page hdr 1).1 (pcl_start_page hdr 1).1.top rows).2 ++
    pcl_end_page hdr 1 ++ pcl_end_job

/-- Recognizer for blank-skip tokens (`ESC *b{n}Y`). -/
def isSkipTok : PclTok → Bool
  | PclTok.skipBlanks _ => true
  | _ => false

/-- Recognizer for pixel-data tokens (`ESC *b{len}W` plus data). -/
def isDataTok : PclTok → Bool
  | PclTok.rasterData _ => true
  | _ => false

/-- Unfolding equation for `pclWriteLines` on a nonempty row list. -/
theorem pclWriteLines_cons (thr : Nat → Nat → Nat) (st : PclPageState)
    (y : Nat) (r : List Nat) (rs : List (List Nat)) :
    pclWriteLines thr st y (r :: rs) =
      ((pclWriteLines thr (pcl_write_line thr st y r).1 (y + 1) rs).1,
        (pcl_write_line thr st y r).2 ++
          (pclWriteLines thr (pcl_write_line thr st y r).1 (y + 1) rs).2) := rfl

/-- On a page whose every row passes the blank test, the row loop emits
nothing and only accumulates the blank counter. -/
theorem pclWriteLines_blank (thr : Nat → Nat → Nat) :
    ∀ (rows : List (List Nat)) (st : PclPageState) (y : Nat),
      (∀ r ∈ rows, blankRow (st.right - st.left + 1) r = true) →
      pclWriteLines thr st y rows =
        ({ st with outBlanks := st.outBlanks + rows.length }, []) := by
  intro rows
  induction rows with
  | nil => intro st y _; rfl
  | cons r rs ih =>
      intro st y hw
      have hb : blankRow (st.right - st.left + 1) r = true := hw r (by simp)
      rw [pclWriteLines_cons, pcl_write_line, if_pos hb]
      rw [ih { st with outBlanks := st.outBlanks + 1 } (y + 1)
        (fun r' hr' => hw r' (by simp [hr']))]
      simp [Nat.add_comm, Nat.add_assoc, Nat.add_left_comm]

/-- A letter-size 300 dpi duplex header with Tumble set (short-edge
binding requested). -/
def cexHdrDT : PclHeader :=
  { hwResolutionX := 300, hwResolutionY := 300, cupsWidth := 2550,
    cupsHeight := 3300, pageSizeY := 792, duplex := true, tumble := true }

/-- Claim C9: the duplex-mode expression `1 + ras->header.Tumble != 0`
parses under C precedence as `(1 + Tumble) != 0`, which is always 1, so
the front side of a duplex sheet always carries `ESC &l1S` — even with
Tumble set, where the claim (and the spec's 0/1/2 table) requires mode 2.
The theorem evaluates the embedded computation at the failing input. -/
theorem claim_C9_bug :
    pclDuplexMode true true = 1 ∧
      PclTok.duplexMode 1 ∈ (pcl_start_page cexHdrDT 1).2 ∧
      ¬ PclTok.duplexMode 2 ∈ (pcl_start_page cexHdrDT 1).2 :=
  ⟨rfl, by decide, by decide⟩

/-- A small simplex grayscale header: 6 dpi, 4×5 pixels, letter height.
Margins: top = 1, bottom = 3, left = 1, right = 2 — printable height 3,
printable width 2. -/
def cexHdrWhite : PclHeader :=
  { hwResolutionX := 6, hwResolutionY := 6, cupsWidth := 4,
    cupsHeight := 5, pageSizeY := 792, duplex := false, tumble := false }

/-- One wholly white (0xFF) row per printable line of `cexHdrWhite`. -/
def cexWhiteRows : List (List Nat) :=
  List.replicate 3 (List.replicate 2 255)

/-- Claim C10 counterexample: for a one-page all-white job the byte
stream contains NO blank-skip sequence `ESC *b{N}Y` at all (the pending
blank count is discarded by `pcl_end_page`), not exactly one as claimed;
it does contain no pixel-data sequence, as claimed. -/
theorem claim_C10_counterexample :
    (pclOnePageJob (fun _ _ => 0) cexHdrWhite cexWhiteRows).countP isSkipTok = 0 ∧
      ¬ (pclOnePageJob (fun _ _ => 0) cexHdrWhite cexWhiteRows).countP isSkipTok = 1 ∧
      (pclOnePageJob (fun _ _ => 0) cexHdrWhite cexWhiteRows).filter isDataTok = [] := by
  refine ⟨by decide, by decide, by decide⟩

/-- Claim C10 (amended): for a one-page simplex PCL job in which every
pixel row is wholly white, the emitted stream is exactly the job prelude
(`ESC E` and the page-setup block) followed by the end-graphics sequence
`ESC *r0B`, a form feed, and the trailing `ESC E` reset: no pixel-data
sequence and also no blank-skip sequence is emitted — the blank-row
counter reaches the number of printable rows but is discarded at
end-of-page. -/
theorem claim_C10_amended (thr : Nat → Nat → Nat) (hdr : PclHeader)
    (rows : List (List Nat)) (hd : hdr.duplex = false)
    (hwhite : ∀ r ∈ rows,
      blankRow ((pcl_start_page hdr 1).1.right - (pcl_start_page hdr 1).1.left + 1) r
        = true) :
    pclOnePageJob thr hdr rows =
      pcl_start_job ++ (pcl_start_page hdr 1).2 ++
        [PclTok.endGraphics, PclTok.formFeed, PclTok.reset] ∧
      (pclWriteLines thr (pcl_start_page hdr 1).1
          (pcl_start_page hdr 1).1.top rows).1.outBlanks = rows.length := by
  constructor
  · rw [pclOnePageJob,
      pclWriteLines_blank thr rows (pcl_start_page hdr 1).1
        (pcl_start_page hdr 1).1.top hwhite,
      pcl_end_page, if_neg (by simp [hd])]
    simp [pcl_start_job, pcl_end_job]
  · rw [pclWriteLines_blank thr rows (pcl_start_page hdr 1).1
      (pcl_start_page hdr 1).1.top hwhite]
    have h0 : (pcl_start_page hdr 1).1.outBlanks = 0 := rfl
    simp [h0]

/-- Claim C10 witness: the amended theorem at the concrete all-white
3-row page of `cexHdrWhite`. -/
theorem claim_C10_witness :
    pclOnePageJob (fun _ _ => 0) cexHdrWhite cexWhiteRows =
      pcl_start_job ++ (pcl_start_page cexHdrWhite 1).2 ++
        [PclTok.endGraphics, PclTok.formFeed, PclTok.reset] ∧
      (pclWriteLines (fun _ _ => 0) (pcl_start_page cexHdrWhite 1).1
          (pcl_start_page cexHdrWhite 1).1.top cexWhiteRows).1.outBlanks =
        cexWhiteRows.length :=
  claim_C10_amended (fun _ _ => 0) cexHdrWhite cexWhiteRows (by decide) (by decide)

end Pcl
